import Mathlib

/-!
# Verification of the Digits clue engine

A shallow embedding, in Lean 4, of the fingerprinting / indexing / solving
core of the Digits game (files `digits_app/src/solver.py`,
`digits_app/src/database_builder.py`, `src/clues/clue_map.py`,
`digits_app/src/constants.py`, `src/utility_methods.py`), together with
theorems settling the specification's claims about it.

Python dictionaries are embedded as association lists (insertion order,
unique keys); numpy float matrices are embedded through an explicit value
type with `inf`/`nan` so that the `astype(int)` clean-up steps can be
reproduced faithfully.
-/

namespace Digits

/-! ## Basic numeric utilities (`utility_methods.py`) -/

/-- `range(1, n+1)` as a list, i.e. `[1, 2, ..., n]`. -/
def countup : ℕ → List ℕ
  | 0 => []
  | n + 1 => countup n ++ [n + 1]

/-- `range(n, 0, -1)` as a list, i.e. `[n, n-1, ..., 1]`. -/
def countdown : ℕ → List ℕ
  | 0 => []
  | n + 1 => (n + 1) :: countdown n

/-- Base-10 digits of `n`, most significant first, by structural recursion
on a fuel argument (so that the kernel can evaluate it); `fuel ≥ n`
suffices. -/
def digitsAux : ℕ → ℕ → List ℕ
  | 0, _ => []
  | _ + 1, 0 => []
  | fuel + 1, n + 1 => digitsAux fuel ((n + 1) / 10) ++ [(n + 1) % 10]

/-- `num_to_digits` from `utility_methods.py`:
`[int(dig) for dig in str(num)]`, most significant digit first. -/
def num_to_digits (n : ℕ) : List ℕ :=
  if n = 0 then [0] else digitsAux n n

/-- The number of characters of `str(n)` for a natural number `n`
(`len(str(n))` in Python). -/
def numLen (n : ℕ) : ℕ :=
  (num_to_digits n).length

lemma digitsAux_eq_digits :
    ∀ n fuel, 1 ≤ n → n ≤ fuel → digitsAux fuel n = (Nat.digits 10 n).reverse := by
  intro n
  induction n using Nat.strong_induction_on with
  | _ n ih =>
    intro fuel h1 h2
    match fuel, n with
    | 0, n => omega
    | fuel + 1, 0 => omega
    | fuel + 1, n + 1 =>
      rw [digitsAux, Nat.digits_def' (by omega : 1 < 10) (by omega : 0 < n + 1),
        List.reverse_cons]
      congr 1
      rcases Nat.eq_zero_or_pos ((n + 1) / 10) with hz | hpos
      · rw [hz]
        cases fuel <;> simp [digitsAux]
      · exact ih _ (Nat.div_lt_self (by omega) (by omega)) fuel hpos
          (by
            have := Nat.div_le_self (n + 1) 10
            have := Nat.div_lt_self (show 0 < n + 1 by omega) (show 1 < 10 by omega)
            omega)

/-- Sanity check: the program's digit encoding agrees with Mathlib's. -/
lemma num_to_digits_eq_digits {n : ℕ} (h : 1 ≤ n) :
    num_to_digits n = (Nat.digits 10 n).reverse := by
  rw [num_to_digits, if_neg (by omega)]
  exact digitsAux_eq_digits n n h (le_refl n)

/-- `digits_to_num` from `utility_methods.py`: the digits are printed in
decimal and the strings concatenated, then read back as an integer.
Each digit is printed and the decimal strings are concatenated. -/
def digits_to_num (ds : List ℕ) : ℕ :=
  ds.foldl (fun acc d => acc * 10 ^ numLen d + d) 0

@[simp] lemma countup_zero : countup 0 = [] := rfl
@[simp] lemma countup_succ (n : ℕ) : countup (n + 1) = countup n ++ [n + 1] := rfl
@[simp] lemma countdown_zero : countdown 0 = [] := rfl
@[simp] lemma countdown_succ (n : ℕ) : countdown (n + 1) = (n + 1) :: countdown n := rfl

lemma mem_countup {n k : ℕ} : k ∈ countup n ↔ 1 ≤ k ∧ k ≤ n := by
  induction n with
  | zero => simp; omega
  | succ m ih => simp [ih]; omega

lemma mem_countdown {n k : ℕ} : k ∈ countdown n ↔ 1 ≤ k ∧ k ≤ n := by
  induction n with
  | zero => simp; omega
  | succ m ih => simp [ih]; omega

/-! ## Python `dict` model

The index tables are Python dicts built with `setdefault`/`append`.
We model them as association lists with unique keys kept in insertion
order.  `dget?` is raw `d[k]` access (`none` = `KeyError`), `dget` is
`d.get(k, [])`, and `dset` is `d.setdefault(k, []); d[k].append(v)`. -/

variable {κ : Type} [DecidableEq κ]

/-- Raw dictionary access `d[k]`: `none` models a raised `KeyError`. -/
def dget? {β : Type} : List (κ × β) → κ → Option β
  | [], _ => none
  | p :: ps, k => if p.1 = k then some p.2 else dget? ps k

/-- `d.get(k, [])`: the bucket for `k`, or `[]` when the key is absent. -/
def dget (d : List (κ × List ℕ)) (k : κ) : List ℕ :=
  (dget? d k).getD []

/-- `d.setdefault(k, []); d[k].append(v)`: append `v` to the bucket of `k`,
creating the bucket at the end of the dict when `k` is new. -/
def dset : List (κ × List ℕ) → κ → ℕ → List (κ × List ℕ)
  | [], k, v => [(k, [v])]
  | p :: ps, k, v => if p.1 = k then (p.1, p.2 ++ [v]) :: ps else p :: dset ps k v

@[simp] lemma dget?_nil {β : Type} (k : κ) : dget? ([] : List (κ × β)) k = none := rfl

lemma dget?_dset_self (d : List (κ × List ℕ)) (k : κ) (v : ℕ) :
    dget? (dset d k v) k = some (dget d k ++ [v]) := by
  induction d with
  | nil => simp [dset, dget?, dget]
  | cons p ps ih =>
    by_cases h : p.1 = k
    · simp [dset, h, dget?, dget]
    · simp [dset, h, dget?, dget, ih]

lemma dget?_dset_ne (d : List (κ × List ℕ)) (k k' : κ) (v : ℕ) (h : k' ≠ k) :
    dget? (dset d k v) k' = dget? d k' := by
  have hkk' : ¬ k = k' := fun hh => h hh.symm
  induction d with
  | nil => simp [dset, dget?, hkk']
  | cons p ps ih =>
    obtain ⟨a, b⟩ := p
    by_cases hpk : a = k
    · subst hpk
      simp [dset, dget?, hkk']
    · by_cases hpk' : a = k'
      · subst hpk'
        simp [dset, dget?, hpk]
      · simp [dset, dget?, hpk, hpk', ih]

lemma dget?_mem_pair {β : Type} {d : List (κ × β)} {k : κ} {b : β}
    (h : dget? d k = some b) : (k, b) ∈ d := by
  induction d with
  | nil => simp [dget?] at h
  | cons p ps ih =>
    obtain ⟨a, bb⟩ := p
    by_cases hpk : a = k
    · subst hpk
      simp [dget?] at h
      subst h
      exact List.mem_cons_self _ _
    · simp [dget?, hpk] at h
      exact List.mem_cons_of_mem _ (ih h)

/-- Every pair of `dset d k v` is a pair of `d`, or the bucket of `k`
extended by `v`, or the fresh singleton bucket `(k, [v])`. -/
lemma mem_dset {d : List (κ × List ℕ)} {k : κ} {v : ℕ} {q : κ × List ℕ}
    (h : q ∈ dset d k v) :
    q ∈ d ∨ (q.1 = k ∧ (q.2 = [v] ∨ ∃ b, (k, b) ∈ d ∧ q.2 = b ++ [v])) := by
  induction d with
  | nil =>
    simp [dset] at h
    subst h
    exact Or.inr ⟨rfl, Or.inl rfl⟩
  | cons p ps ih =>
    obtain ⟨a, bb⟩ := p
    by_cases hpk : a = k
    · subst hpk
      simp [dset] at h
      rcases h with h1 | h2
      · subst h1
        exact Or.inr ⟨rfl, Or.inr ⟨bb, List.mem_cons_self _ _, rfl⟩⟩
      · exact Or.inl (List.mem_cons_of_mem _ h2)
    · simp only [dset, if_neg hpk, List.mem_cons] at h
      rcases h with h | h
      · exact Or.inl (by simp [h])
      · rcases ih h with h' | ⟨h1, h2⟩
        · exact Or.inl (List.mem_cons_of_mem _ h')
        · refine Or.inr ⟨h1, ?_⟩
          rcases h2 with h2 | ⟨b, hb, hq⟩
          · exact Or.inl h2
          · exact Or.inr ⟨b, List.mem_cons_of_mem _ hb, hq⟩

/-! ## Match-index construction (`database_builder.py`)

`MapsDatabaseBuilder.store_simple_maps` loops `for val in range(1, max+1)`,
computes the fingerprint of `val`'s digits with the family's key function,
and appends `val` to that fingerprint's bucket.  Note the loop starts at 1
and the builder's `min` bound is never consulted. -/

/-- The dict built by `MapsDatabaseBuilder.store_simple_maps` (the object
that is then pickled to disk): one bucket of integers per fingerprint,
over the range `1..max`.  `f` is the composite
`val ↦ map_key_func(map_class(num_to_digits(val)).num_map)`. -/
def store_simple_maps (max : ℕ) (f : ℕ → κ) : List (κ × List ℕ) :=
  (countup max).foldl (fun m v => dset m (f v) v) []

/-- The dict built by `MapsDatabaseBuilder.store_variety_maps`: the same
bucket table, nested under the single attribute key. -/
def store_variety_maps (max : ℕ) (attr : String) (f : ℕ → κ) :
    List (String × List (κ × List ℕ)) :=
  [(attr, store_simple_maps max f)]

/-- The builder's constructor state: `min`, `max` and the difficulty
(`MapsDatabaseBuilder.__init__`). -/
structure MapsDatabaseBuilder where
  min : ℕ
  max : ℕ
  difficulty : String

/-- `store_simple_maps` as invoked by the builder: only `self.max` is
passed to the range loop. -/
def MapsDatabaseBuilder.simple_maps (b : MapsDatabaseBuilder) (f : ℕ → κ) :
    List (κ × List ℕ) :=
  store_simple_maps b.max f

/-- `store_variety_maps` as invoked by the builder. -/
def MapsDatabaseBuilder.variety_maps (b : MapsDatabaseBuilder)
    (attr : String) (f : ℕ → κ) : List (String × List (κ × List ℕ)) :=
  store_variety_maps b.max attr f

lemma store_simple_maps_succ (max : ℕ) (f : ℕ → κ) :
    store_simple_maps (max + 1) f
      = dset (store_simple_maps max f) (f (max + 1)) (max + 1) := by
  simp [store_simple_maps, List.foldl_append]

/-- Soundness of the built index: everything in the bucket of key `k`
lies in `1..max` and has fingerprint `k`. -/
lemma store_simple_maps_sound {max : ℕ} {f : ℕ → κ} :
    ∀ q ∈ store_simple_maps max f, ∀ m ∈ q.2, 1 ≤ m ∧ m ≤ max ∧ f m = q.1 := by
  induction max with
  | zero => simp [store_simple_maps]
  | succ n ih =>
    intro q hq m hm
    rw [store_simple_maps_succ] at hq
    rcases mem_dset hq with h | ⟨hk, h⟩
    · have := ih q h m hm
      exact ⟨this.1, by omega, this.2.2⟩
    · rcases h with h | ⟨b, hb, hqb⟩
      · rw [h] at hm
        simp at hm
        subst hm
        exact ⟨by omega, le_refl _, hk.symm⟩
      · rw [hqb] at hm
        rcases List.mem_append.1 hm with h' | h'
        · have := ih _ hb m h'
          simp at this
          exact ⟨this.1, by omega, by rw [this.2.2, hk]⟩
        · simp at h'
          subst h'
          exact ⟨by omega, le_refl _, hk.symm⟩

/-- Completeness of the built index: every `n` in `1..max` is present in
the bucket keyed by its own fingerprint `f n`. -/
lemma store_simple_maps_complete_aux {max : ℕ} {f : ℕ → κ} :
    ∀ n, 1 ≤ n → n ≤ max → n ∈ dget (store_simple_maps max f) (f n) := by
  induction max with
  | zero => intro n h1 h2; omega
  | succ mx ih =>
    intro n h1 h2
    rw [store_simple_maps_succ]
    by_cases hn : n = mx + 1
    · subst hn
      simp [dget, dget?_dset_self]
    · have hle : n ≤ mx := by omega
      by_cases hk : f n = f (mx + 1)
      · rw [dget, hk, dget?_dset_self]
        simp only [Option.getD_some, List.mem_append]
        left
        rw [← hk]
        exact ih n h1 hle
      · rw [dget, dget?_dset_ne _ _ _ _ hk]
        exact ih n h1 hle

/-- Completeness of the built index, with the range and key function
explicit. -/
lemma store_simple_maps_complete (max : ℕ) (f : ℕ → κ) :
    ∀ n, 1 ≤ n → n ≤ max → n ∈ dget (store_simple_maps max f) (f n) :=
  store_simple_maps_complete_aux

/-! ## Fingerprint encoders (`src/clues/clue_map.py`) -/

/-- `OrderClueMap.build_clue`: `ascending` is
`all(cur <= next for cur, next in zip(digits, digits[1:]))`. -/
def order_ascending (ds : List ℕ) : Bool :=
  (ds.zip ds.tail).all (fun p => p.1 ≤ p.2)

/-- `OrderClueMap.build_clue`: `descending` is
`all(cur >= next for cur, next in zip(digits, digits[1:]))`. -/
def order_descending (ds : List ℕ) : Bool :=
  (ds.zip ds.tail).all (fun p => p.2 ≤ p.1)

/-- `OrderClueMap.num_map = [int(ascending), int(descending)]`. -/
def order_num_map (ds : List ℕ) : List ℕ :=
  [if order_ascending ds then 1 else 0, if order_descending ds then 1 else 0]

/-- `TotalSumClueMap.build_clue`: for each digit compare it with the sum of
the remaining digits; `1` for greater, `0` for equal, `-1` otherwise. -/
def total_sum_num_map (ds : List ℕ) : List ℤ :=
  ds.map (fun val : ℕ =>
    if (val : ℤ) > (ds.sum : ℤ) - (val : ℤ) then 1
    else if (val : ℤ) = (ds.sum : ℤ) - (val : ℤ) then 0
    else -1)

/-- `EvenClueMap.build_clue`: `[1 if val % 2 == 0 else 0 for val in digits]`. -/
def even_num_map (ds : List ℕ) : List ℕ :=
  ds.map (fun val => if val % 2 = 0 then 1 else 0)

/-- `EvenClueMap.num_even`: the cached count of even digits,
`num_map.count(1)`. -/
def even_num_even (ds : List ℕ) : ℕ :=
  (even_num_map ds).count 1

/-! ## Match resolution (`solver.py`) -/

/-- `Solver.get_simple_matches`, after the answer's own map has been turned
into a key: `matches = all_maps.get(num_map, [])`.  A fingerprint absent
from the index yields the plain empty list — the dead
`try/except KeyError` around `.get` can never fire. -/
def get_simple_matches (all_maps : List (κ × List ℕ)) (num_map : κ) : List ℕ :=
  dget all_maps num_map

/-- `Solver.get_variety_matches`: `matching_nums = all_maps[attribute][answer_map]`.
Both accesses are raw `dict` subscripts, so a missing attribute or a missing
fingerprint raises `KeyError`, modelled by `none`. -/
def get_variety_matches (all_maps : List (String × List (κ × List ℕ)))
    (attr : String) (answer_map : κ) : Option (List ℕ) :=
  match dget? all_maps attr with
  | none => none
  | some inner => dget? inner answer_map

/-- `Solver.get_even_matches`: instead of an exact lookup, collect every
bucket whose stored parity vector has the same number of `1`s as the
answer's parity vector, and concatenate them in index order. -/
def get_even_matches (map_file : List (List ℕ × List ℕ)) (num_map : List ℕ) :
    List ℕ :=
  ((map_file.filter (fun p => p.1.count 1 = num_map.count 1)).map Prod.snd).flatten

/-- `Solver._filter_by_length` for one family's match list: keep the
integers whose decimal length equals the answer's decimal length. -/
def filter_by_length (answer : ℕ) (ms : List ℕ) : List ℕ :=
  ms.filter (fun m => numLen m = numLen answer)

lemma mem_filter_by_length {answer m : ℕ} {ms : List ℕ} :
    m ∈ filter_by_length answer ms ↔ m ∈ ms ∧ numLen m = numLen answer := by
  simp [filter_by_length]

lemma mem_get_even_matches {map_file : List (List ℕ × List ℕ)}
    {num_map : List ℕ} {m : ℕ} :
    m ∈ get_even_matches map_file num_map
      ↔ ∃ q ∈ map_file, q.1.count 1 = num_map.count 1 ∧ m ∈ q.2 := by
  simp only [get_even_matches, List.mem_flatten, List.mem_map, List.mem_filter]
  constructor
  · rintro ⟨l, ⟨q, ⟨hq, hc⟩, hl⟩, hm⟩
    exact ⟨q, hq, by simpa using hc, hl ▸ hm⟩
  · rintro ⟨q, hq, hc, hm⟩
    exact ⟨q.2, ⟨q, ⟨hq, by simpa using hc⟩, rfl⟩, hm⟩

/-! ## Combinatorial solver (`solver.py`, `find_overlaps` /
`find_most_fun_clues`)

`all_matches` is the insertion-ordered dict of length-filtered MatchSets
keyed by clue type; we embed it as a list of (clue type, match list) pairs.
A combination of clue families is a subsequence of that list
(`itertools.combinations(all_matches.items(), size)`). -/

/-- `set.intersection(*map(set, combo.values()))`: the intersection of the
match lists of a combination, as a finite set. -/
def interAll : List (List ℕ) → Finset ℕ
  | [] => ∅
  | l :: ls => ls.foldl (fun acc l' => acc ∩ l'.toFinset) l.toFinset

lemma mem_foldl_inter {x : ℕ} :
    ∀ (ls : List (List ℕ)) (acc : Finset ℕ),
      x ∈ ls.foldl (fun acc l' => acc ∩ l'.toFinset) acc
        ↔ x ∈ acc ∧ ∀ l' ∈ ls, x ∈ l' := by
  intro ls
  induction ls with
  | nil => intro acc; simp
  | cons l ls ih =>
    intro acc
    rw [List.foldl_cons, ih]
    simp only [Finset.mem_inter, List.mem_toFinset, List.mem_cons]
    constructor
    · rintro ⟨⟨h1, h2⟩, h3⟩
      refine ⟨h1, ?_⟩
      intro l' hl'
      rcases hl' with h | h
      · exact h ▸ h2
      · exact h3 l' h
    · rintro ⟨h1, h2⟩
      exact ⟨⟨h1, h2 l (Or.inl rfl)⟩, fun l' hl' => h2 l' (Or.inr hl')⟩

lemma mem_interAll {x : ℕ} {ls : List (List ℕ)} :
    x ∈ interAll ls ↔ ls ≠ [] ∧ ∀ l ∈ ls, x ∈ l := by
  cases ls with
  | nil => simp [interAll]
  | cons l ls =>
    rw [interAll, mem_foldl_inter]
    simp only [List.mem_toFinset, ne_eq, reduceCtorEq, not_false_eq_true, true_and,
      List.mem_cons]
    constructor
    · rintro ⟨h1, h2⟩ l' hl'
      rcases hl' with h | h
      · exact h ▸ h1
      · exact h2 l' h
    · intro h
      exact ⟨h l (Or.inl rfl), fun l' hl' => h l' (Or.inr hl')⟩

/-- The solved combinations of a given size: every size-`k` combination of
clue families whose match-set intersection has exactly one element
(`len(overlapping_nums) == 1` in `find_overlaps`). -/
def solvedAt (all_matches : List (String × List ℕ)) (k : ℕ) :
    List (List (String × List ℕ)) :=
  (all_matches.sublistsLen k).filter
    (fun combo => (interAll (combo.map Prod.snd)).card = 1)

/-- The size iteration order of `find_overlaps`:
`range(len(all_matches), 0, -1)` in easy mode, `range(1, len+1)` otherwise. -/
def sizesFor (difficulty : String) (n : ℕ) : List ℕ :=
  if difficulty = "easy" then countdown n else countup n

/-- The first combination size (in iteration order) at which at least one
solved combination exists; the `for size` loop of `find_overlaps` breaks
after the first size that sets `solved = True`. -/
def winning_size (difficulty : String) (all_matches : List (String × List ℕ)) :
    Option ℕ :=
  (sizesFor difficulty all_matches.length).find?
    (fun k => !(solvedAt all_matches k).isEmpty)

/-- `Solver.find_overlaps`, keyed combinations only: all solved
combinations of the winning size (empty when no size is solved). -/
def find_overlaps (difficulty : String) (all_matches : List (String × List ℕ)) :
    List (List (String × List ℕ)) :=
  match winning_size difficulty all_matches with
  | some k => solvedAt all_matches k
  | none => []

/-- `combo_clues` in `find_overlaps`: the clues dict filtered down to the
clue types of the combination (`item[0] in combo`). -/
def combo_clues (clues : List (String × List String))
    (combo : List (String × List ℕ)) : List (String × List String) :=
  clues.filter (fun p => (combo.map Prod.fst).contains p.1)

/-- `num_clues` in `find_overlaps`: the total number of clues contributed
by the families of the combination. -/
def num_clues (clues : List (String × List String))
    (combo : List (String × List ℕ)) : ℕ :=
  ((combo_clues clues combo).map (fun p => p.2.length)).sum

/-- `Solver.find_overlaps` with the per-combination info it records:
each solved combination of the winning size, with its filtered clues dict
and total clue count. -/
def find_overlaps_full (difficulty : String)
    (all_matches : List (String × List ℕ)) (clues : List (String × List String)) :
    List (List (String × List ℕ) × (List (String × List String) × ℕ)) :=
  (find_overlaps difficulty all_matches).map
    (fun combo => (combo, (combo_clues clues combo, num_clues clues combo)))

/-- Python's `min` over a non-empty list (the solver never applies it to an
empty one; `min([])` would raise). -/
def pythonMin : List ℕ → ℕ
  | [] => 0
  | x :: xs => xs.foldl min x

lemma foldl_min_le_init (xs : List ℕ) : ∀ a : ℕ, xs.foldl min a ≤ a := by
  induction xs with
  | nil => intro a; simp
  | cons x xs ih =>
    intro a
    rw [List.foldl_cons]
    exact le_trans (ih (min a x)) (min_le_left _ _)

lemma foldl_min_le_mem {x : ℕ} {xs : List ℕ} (h : x ∈ xs) :
    ∀ a : ℕ, xs.foldl min a ≤ x := by
  induction xs with
  | nil => simp at h
  | cons y ys ih =>
    intro a
    rw [List.foldl_cons]
    rcases List.mem_cons.1 h with h' | h'
    · subst h'
      exact le_trans (foldl_min_le_init _ _) (min_le_right _ _)
    · exact ih h' _

lemma foldl_min_mem (xs : List ℕ) : ∀ a : ℕ, xs.foldl min a = a ∨ xs.foldl min a ∈ xs := by
  induction xs with
  | nil => intro a; simp
  | cons x xs ih =>
    intro a
    rw [List.foldl_cons]
    rcases ih (min a x) with h | h
    · rcases le_total a x with hax | hax
      · left
        rw [h, min_eq_left hax]
      · right
        rw [h, min_eq_right hax]
        exact List.mem_cons_self _ _
    · exact Or.inr (List.mem_cons_of_mem _ h)

lemma pythonMin_le {x : ℕ} {xs : List ℕ} (h : x ∈ xs) : pythonMin xs ≤ x := by
  cases xs with
  | nil => simp at h
  | cons y ys =>
    rw [pythonMin]
    rcases List.mem_cons.1 h with h' | h'
    · exact h' ▸ foldl_min_le_init _ _
    · exact foldl_min_le_mem h' _

lemma pythonMin_mem {xs : List ℕ} (h : xs ≠ []) : pythonMin xs ∈ xs := by
  cases xs with
  | nil => exact absurd rfl h
  | cons y ys =>
    rw [pythonMin]
    rcases foldl_min_mem ys y with h' | h'
    · rw [h']
      exact List.mem_cons_self _ _
    · exact List.mem_cons_of_mem _ h'

/-- `Solver.find_most_fun_clues` with the default `min`/`min` filters.
`choice` stands for the value drawn by
`randint(0, len(funnest_combos.keys()) - 1)`; list indexing replaces the
dict-items indexing of the source.  Returns the chosen combination's clues
dict together with the combination size. -/
def find_most_fun_clues
    (solved_combos : List (List (String × List ℕ) × (List (String × List String) × ℕ)))
    (choice : ℕ) : Option (List (String × List String) × ℕ) :=
  let combo_size := pythonMin (solved_combos.map (fun e => e.1.length))
  let clue_size := pythonMin (solved_combos.map (fun e => e.2.2))
  let combos := solved_combos.filter (fun e => e.1.length = combo_size)
  let clues_only := solved_combos.filter (fun e => e.2.2 = clue_size)
  let nclues := pythonMin (combos.map (fun e => e.2.2))
  let funnest := combos.filter (fun e => e.2.2 = nclues)
  let _ := clues_only
  (funnest.get? choice).map (fun e => (e.2.1, combo_size))

/-- The whole per-answer solving step of `Solver.__init__` after match
resolution: `find_overlaps` followed by `find_most_fun_clues`. -/
def solve (difficulty : String) (all_matches : List (String × List ℕ))
    (clues : List (String × List String)) (choice : ℕ) :
    Option (List (String × List String) × ℕ) :=
  find_most_fun_clues (find_overlaps_full difficulty all_matches clues) choice

/-! ## Facts about the size search -/

lemma find_append_first {α : Type} (p : α → Bool) (l₁ l₂ : List α) :
    List.find? p (l₁ ++ l₂)
      = match List.find? p l₁ with
        | some a => some a
        | none => List.find? p l₂ := by
  induction l₁ with
  | nil => simp
  | cons x xs ih =>
    by_cases h : p x
    · simp [List.find?, h]
    · simp only [List.cons_append, List.find?, h]
      exact ih

/-- The first element of `[n, n-1, ..., 1]` satisfying `p` is the largest
element of `1..n` satisfying `p`. -/
lemma find_countdown_spec (p : ℕ → Bool) :
    ∀ n k, (countdown n).find? p = some k →
      p k = true ∧ 1 ≤ k ∧ k ≤ n ∧ ∀ j, j ≤ n → p j = true → j ≤ k := by
  intro n
  induction n with
  | zero => intro k h; simp [List.find?] at h
  | succ m ih =>
    intro k h
    rw [countdown_succ, List.find?] at h
    by_cases hp : p (m + 1)
    · rw [hp] at h
      simp at h
      subst h
      exact ⟨hp, by omega, le_refl _, fun j hj _ => hj⟩
    · simp only [hp] at h
      rcases ih k h with ⟨h1, h2, h3, h4⟩
      refine ⟨h1, h2, by omega, ?_⟩
      intro j hj hpj
      rcases Nat.lt_or_ge j (m + 1) with hlt | hge
      · exact h4 j (by omega) hpj
      · have : j = m + 1 := by omega
        subst this
        exact absurd hpj (by simp [hp])

/-- The first element of `[1, 2, ..., n]` satisfying `p` is the smallest
element of `1..n` satisfying `p`. -/
lemma find_countup_spec (p : ℕ → Bool) :
    ∀ n k, (countup n).find? p = some k →
      p k = true ∧ 1 ≤ k ∧ k ≤ n ∧ ∀ j, 1 ≤ j → j ≤ n → p j = true → k ≤ j := by
  intro n
  induction n with
  | zero => intro k h; simp [List.find?] at h
  | succ m ih =>
    intro k h
    rw [countup_succ, find_append_first] at h
    rcases hfind : (countup m).find? p with _ | k'
    · rw [hfind] at h
      by_cases hp : p (m + 1)
      · simp only [List.find?, hp, Option.some.injEq] at h
        subst h
        refine ⟨hp, by omega, le_refl _, ?_⟩
        intro j hj1 hj hpj
        rcases Nat.lt_or_ge j (m + 1) with hlt | hge
        · have hjm : j ∈ countup m := mem_countup.2 ⟨hj1, by omega⟩
          have := List.find?_eq_none.1 hfind j hjm
          exact absurd hpj (by simp [this])
        · omega
      · simp [List.find?, hp] at h
    · rw [hfind] at h
      simp at h
      subst h
      rcases ih k' hfind with ⟨h1, h2, h3, h4⟩
      refine ⟨h1, h2, by omega, ?_⟩
      intro j hj1 hj hpj
      rcases Nat.lt_or_ge j (m + 1) with hlt | hge
      · exact h4 j hj1 (by omega) hpj
      · omega

lemma mem_solvedAt {all_matches : List (String × List ℕ)} {k : ℕ}
    {combo : List (String × List ℕ)} :
    combo ∈ solvedAt all_matches k
      ↔ combo.Sublist all_matches ∧ combo.length = k
          ∧ (interAll (combo.map Prod.snd)).card = 1 := by
  simp only [solvedAt, List.mem_filter, List.mem_sublistsLen, decide_eq_true_eq]
  tauto

/-- A solved combination exists at size `k` only when `k` is between 1 and
the number of clue families. -/
lemma solvedAt_size_bounds {all_matches : List (String × List ℕ)} {k : ℕ}
    (h : solvedAt all_matches k ≠ []) : 1 ≤ k ∧ k ≤ all_matches.length := by
  rcases List.exists_mem_of_ne_nil _ h with ⟨combo, hc⟩
  rcases mem_solvedAt.1 hc with ⟨hsub, hlen, hcard⟩
  constructor
  · by_contra hk
    have hk0 : k = 0 := by omega
    subst hk0
    have : combo = [] := List.length_eq_zero.1 hlen
    subst this
    simp [interAll] at hcard
  · exact hlen ▸ hsub.length_le

lemma not_isEmpty_iff {α : Type} {l : List α} : (!l.isEmpty) = true ↔ l ≠ [] := by
  cases l <;> simp

/-- Example match dict used to instantiate the solver theorems:
the answer 5 is a member of every family's (length-filtered) match list. -/
def exAms : List (String × List ℕ) := [("order", [5]), ("even", [5, 7])]

/-- Example clues dict paired with `exAms`. -/
def exClues : List (String × List String) :=
  [("order", ["clue a"]), ("even", ["clue b", "clue c"])]

/-- C1.  For every answer whose digits were used to build the Solver (so
that, by index completeness, the answer belongs to each family's
length-filtered MatchSet), every combination recorded as solved by
`find_overlaps` has a match-set intersection of exactly one element, and
that element is the answer itself. -/
theorem solved_combination_correctness
    (difficulty : String) (all_matches : List (String × List ℕ)) (answer : ℕ)
    (hans : ∀ p ∈ all_matches, answer ∈ p.2)
    (combo : List (String × List ℕ))
    (hc : combo ∈ find_overlaps difficulty all_matches) :
    interAll (combo.map Prod.snd) = {answer} := by
  rw [find_overlaps] at hc
  cases hw : winning_size difficulty all_matches with
  | none => rw [hw] at hc; simp at hc
  | some k =>
    rw [hw] at hc
    rcases mem_solvedAt.1 hc with ⟨hsub, hlen, hcard⟩
    have hne : combo ≠ [] := by
      intro h0
      rw [h0] at hcard
      simp [interAll] at hcard
    have hmem : answer ∈ interAll (combo.map Prod.snd) := by
      rw [mem_interAll]
      constructor
      · simpa using hne
      · intro l hl
        rcases List.mem_map.1 hl with ⟨p, hp, hpl⟩
        exact hpl ▸ hans p (hsub.subset hp)
    rcases Finset.card_eq_one.1 hcard with ⟨b, hb⟩
    rw [hb] at hmem ⊢
    simp at hmem
    rw [hmem]

/-- Witness for C1 at a concrete input: with the answer 5 in both match
lists, the solved singleton combination intersects to exactly `{5}`. -/
theorem solved_combination_correctness_witness :
    interAll ([("order", [5])].map Prod.snd) = {5} :=
  solved_combination_correctness "medium" exAms 5 (by decide)
    [("order", [5])] (by decide)

/-- C2.  The size of the returned combination: in easy mode the search
walks sizes from the family count down to 1, otherwise from 1 up, and
stops at the first size with a solved combination; hence the winning size
is the largest (easy) resp. smallest (other difficulties) size at which
any solved combination exists, and `find_overlaps` returns exactly the
solved combinations of that size. -/
theorem difficulty_size_monotonicity
    (difficulty : String) (all_matches : List (String × List ℕ)) (k : ℕ)
    (h : winning_size difficulty all_matches = some k) :
    solvedAt all_matches k ≠ []
    ∧ (difficulty = "easy" →
        ∀ j, solvedAt all_matches j ≠ [] → j ≤ k)
    ∧ (difficulty ≠ "easy" →
        ∀ j, solvedAt all_matches j ≠ [] → k ≤ j)
    ∧ find_overlaps difficulty all_matches = solvedAt all_matches k := by
  have hfo : find_overlaps difficulty all_matches = solvedAt all_matches k := by
    rw [find_overlaps, h]
  by_cases hd : difficulty = "easy"
  · rw [winning_size, sizesFor, if_pos hd] at h
    rcases find_countdown_spec _ _ _ h with ⟨h1, _, _, h4⟩
    refine ⟨not_isEmpty_iff.1 h1, fun _ j hj => ?_, fun hne => absurd hd hne, hfo⟩
    have hb := solvedAt_size_bounds hj
    exact h4 j hb.2 (not_isEmpty_iff.2 hj)
  · rw [winning_size, sizesFor, if_neg hd] at h
    rcases find_countup_spec _ _ _ h with ⟨h1, _, _, h4⟩
    refine ⟨not_isEmpty_iff.1 h1, fun hd' => absurd hd' hd, fun _ j hj => ?_, hfo⟩
    have hb := solvedAt_size_bounds hj
    exact h4 j hb.1 hb.2 (not_isEmpty_iff.2 hj)

/-- Witness for C2 at a concrete input: in easy mode the winning size for
`exAms` is 2 (the largest solvable size), and `find_overlaps` returns the
solved combinations of size 2. -/
theorem difficulty_size_monotonicity_witness :
    solvedAt exAms 2 ≠ [] ∧ find_overlaps "easy" exAms = solvedAt exAms 2 :=
  ⟨(difficulty_size_monotonicity "easy" exAms 2 (by decide)).1,
   (difficulty_size_monotonicity "easy" exAms 2 (by decide)).2.2.2⟩

lemma find_most_fun_clues_eq
    (sc : List (List (String × List ℕ) × (List (String × List String) × ℕ)))
    (choice : ℕ) :
    find_most_fun_clues sc choice
      = (((sc.filter (fun e => e.1.length = pythonMin (sc.map (fun e => e.1.length)))).filter
            (fun e => e.2.2 = pythonMin ((sc.filter (fun e =>
              e.1.length = pythonMin (sc.map (fun e => e.1.length)))).map
                (fun e => e.2.2)))).get? choice).map
          (fun e => (e.2.1, pythonMin (sc.map (fun e => e.1.length)))) := rfl

/-- C7.  Whenever the per-answer solve step returns a result, the clues it
returns are those of a solved combination of the winning size whose total
clue count is minimal among all solved combinations of that size. -/
theorem most_fun_clues_minimal
    (difficulty : String) (all_matches : List (String × List ℕ))
    (clues : List (String × List String)) (choice : ℕ)
    (resClues : List (String × List String)) (size : ℕ)
    (h : solve difficulty all_matches clues choice = some (resClues, size)) :
    ∃ combo ∈ solvedAt all_matches size,
      resClues = combo_clues clues combo
      ∧ ∀ combo' ∈ solvedAt all_matches size,
          num_clues clues combo ≤ num_clues clues combo' := by
  rw [solve, find_overlaps_full] at h
  cases hw : winning_size difficulty all_matches with
  | none =>
    rw [find_overlaps, hw] at h
    simp [find_most_fun_clues] at h
  | some k =>
    have hkne : solvedAt all_matches k ≠ [] := by
      by_cases hd : difficulty = "easy"
      · rw [winning_size, sizesFor, if_pos hd] at hw
        exact not_isEmpty_iff.1 (find_countdown_spec _ _ _ hw).1
      · rw [winning_size, sizesFor, if_neg hd] at hw
        exact not_isEmpty_iff.1 (find_countup_spec _ _ _ hw).1
    rw [find_overlaps, hw] at h
    set sc := (solvedAt all_matches k).map
      (fun combo => (combo, (combo_clues clues combo, num_clues clues combo)))
      with hsc
    have hsc_len : ∀ e ∈ sc, e.1.length = k := by
      intro e he
      rcases List.mem_map.1 he with ⟨combo, hc, hce⟩
      rw [← hce]
      exact (mem_solvedAt.1 hc).2.1
    have hsc_ne : sc ≠ [] := by
      intro h0
      exact hkne (List.map_eq_nil_iff.1 h0)
    have hsize : pythonMin (sc.map (fun e => e.1.length)) = k := by
      have hmem := pythonMin_mem
        (show sc.map (fun e => e.1.length) ≠ [] by simpa using hsc_ne)
      rcases List.mem_map.1 hmem with ⟨e, he, hek⟩
      rw [← hek]
      exact hsc_len e he
    have hfilter : sc.filter (fun e => e.1.length = k) = sc :=
      List.filter_eq_self.2 (fun e he => by simp [hsc_len e he])
    rw [find_most_fun_clues_eq] at h
    simp only [hsize] at h
    rw [hfilter] at h
    cases hget : (sc.filter
        (fun e => e.2.2 = pythonMin (sc.map (fun e => e.2.2)))).get? choice with
    | none => rw [hget] at h; simp at h
    | some e =>
      rw [hget] at h
      simp only [Option.map_some', Option.some.injEq, Prod.mk.injEq] at h
      obtain ⟨hres, hsz⟩ := h
      have hefun := List.get?_mem hget
      have hefilter := List.mem_filter.1 hefun
      have hemem := hefilter.1
      have hemin : e.2.2 = pythonMin (sc.map (fun e => e.2.2)) := by
        have := hefilter.2
        simpa using this
      rcases List.mem_map.1 hemem with ⟨combo, hcombo, hce⟩
      refine ⟨combo, ?_, ?_, ?_⟩
      · rw [← hsz]
        exact hcombo
      · rw [← hres, ← hce]
      · intro combo' hc'
        rw [← hsz] at hc'
        have hin : num_clues clues combo' ∈ sc.map (fun e => e.2.2) := by
          refine List.mem_map.2 ⟨(combo', (combo_clues clues combo',
            num_clues clues combo')), List.mem_map.2 ⟨combo', hc', rfl⟩, rfl⟩
        have hle := pythonMin_le hin
        have : num_clues clues combo = e.2.2 := by rw [← hce]
        rw [this, hemin]
        exact hle

/-- Witness for C7 at a concrete input: the solver picks the clues of the
only solved size-1 combination, whose clue count is minimal. -/
theorem most_fun_clues_minimal_witness :
    ∃ combo ∈ solvedAt exAms 1,
      [("order", ["clue a"])] = combo_clues exClues combo
      ∧ ∀ combo' ∈ solvedAt exAms 1,
          num_clues exClues combo ≤ num_clues exClues combo' :=
  most_fun_clues_minimal "medium" exAms exClues 0 [("order", ["clue a"])] 1
    (by decide)

lemma mem_dget {d : List (κ × List ℕ)} {k : κ} {n : ℕ} (h : n ∈ dget d k) :
    ∃ b, dget? d k = some b ∧ n ∈ b := by
  rw [dget] at h
  cases hq : dget? d k with
  | none => rw [hq] at h; simp at h
  | some b => rw [hq] at h; exact ⟨b, rfl, by simpa using h⟩

/-- Supporting fact for C1's hypothesis: the answer always belongs to its
own length-filtered simple MatchSet when the index range covers it. -/
lemma answer_mem_simple_matches (mx answer : ℕ) (f : ℕ → κ)
    (h1 : 1 ≤ answer) (h2 : answer ≤ mx) :
    answer ∈ filter_by_length answer
      (get_simple_matches (store_simple_maps mx f) (f answer)) := by
  rw [mem_filter_by_length]
  exact ⟨store_simple_maps_complete mx f answer h1 h2, rfl⟩

/-- C10.  The builder's index for a (difficulty, family) pair contains
exactly the integers `1..max`, each in the bucket of its own fingerprint;
the builder's `min` bound does not restrict the table's contents (the
loop is `range(1, max+1)`), for both the simple and the variety layout. -/
theorem index_contents_exact (mn mx : ℕ) (d : String) (f : ℕ → κ) :
    (∀ n, (∃ q ∈ MapsDatabaseBuilder.simple_maps ⟨mn, mx, d⟩ f, n ∈ q.2)
        ↔ 1 ≤ n ∧ n ≤ mx)
    ∧ (∀ n, 1 ≤ n → n ≤ mx →
        n ∈ dget (MapsDatabaseBuilder.simple_maps ⟨mn, mx, d⟩ f) (f n))
    ∧ (∀ mn', MapsDatabaseBuilder.simple_maps ⟨mn, mx, d⟩ f
        = MapsDatabaseBuilder.simple_maps (⟨mn', mx, d⟩ : MapsDatabaseBuilder) f)
    ∧ (∀ attr n, 1 ≤ n → n ≤ mx →
        ∃ inner, dget? (MapsDatabaseBuilder.variety_maps ⟨mn, mx, d⟩ attr f) attr
            = some inner
          ∧ n ∈ dget inner (f n)) := by
  refine ⟨?_, ?_, ?_, ?_⟩
  · intro n
    constructor
    · rintro ⟨q, hq, hn⟩
      have := store_simple_maps_sound q hq n hn
      exact ⟨this.1, this.2.1⟩
    · rintro ⟨hn1, hn2⟩
      have hmem := store_simple_maps_complete mx f n hn1 hn2
      rcases mem_dget hmem with ⟨b, hb, hnb⟩
      exact ⟨(f n, b), dget?_mem_pair hb, hnb⟩
  · intro n hn1 hn2
    exact store_simple_maps_complete mx f n hn1 hn2
  · intro mn'
    rfl
  · intro attr n hn1 hn2
    refine ⟨store_simple_maps mx f, ?_, store_simple_maps_complete mx f n hn1 hn2⟩
    simp [MapsDatabaseBuilder.variety_maps, store_variety_maps, dget?]

/-- Witness for C10 at a concrete input: with the even-parity fingerprint,
min bound 9 and max bound 5, the integer 3 still lands in the bucket of
its own fingerprint (the min bound is ignored). -/
theorem index_contents_exact_witness :
    3 ∈ dget (MapsDatabaseBuilder.simple_maps ⟨9, 5, "easy"⟩
        (fun n => even_num_map (num_to_digits n)))
      (even_num_map (num_to_digits 3)) :=
  (index_contents_exact 9 5 "easy"
    (fun n => even_num_map (num_to_digits n))).2.1 3 (by decide) (by decide)

/-- C4 counterexample.  For the even-family index over `1..9`, the
fingerprint `[0, 1]` (a two-digit answer's parity vector) is absent from
the table, yet `get_simple_matches` returns the plain empty list — the
very value that also encodes "zero matches found".  No error distinct
from an empty result is signalled: `all_maps.get(num_map, [])` swallows
the miss, and the surrounding `try/except KeyError` is dead code. -/
theorem lookup_miss_counterexample :
    dget? (store_simple_maps 9 (fun n => even_num_map (num_to_digits n)))
        ([0, 1] : List ℕ) = none
    ∧ get_simple_matches
        (store_simple_maps 9 (fun n => even_num_map (num_to_digits n)))
        ([0, 1] : List ℕ) = [] := by
  constructor
  · decide
  · decide

/-- C4 (amended).  Only the variety families (`special_properties`,
`partials`) raise on a missing fingerprint (raw `dict` subscript,
modelled as `none`); the simple families return `[]` on a miss,
indistinguishable from an empty bucket. -/
theorem lookup_miss_behavior :
    (∀ (all_maps : List (List ℕ × List ℕ)) (num_map : List ℕ),
        dget? all_maps num_map = none →
          get_simple_matches all_maps num_map = [])
    ∧ (∀ (all_maps : List (String × List (List ℕ × List ℕ)))
          (attr : String) (inner : List (List ℕ × List ℕ)) (answer_map : List ℕ),
        dget? all_maps attr = some inner → dget? inner answer_map = none →
          get_variety_matches all_maps attr answer_map = none) := by
  constructor
  · intro am nm h
    rw [get_simple_matches, dget, h]
    rfl
  · intro am attr inner k h1 h2
    rw [get_variety_matches, h1]
    exact h2

/-- Witness for C4's amended statement at concrete inputs: an empty simple
index yields `[]`, and a variety index with an empty inner table yields a
raised `KeyError` (`none`). -/
theorem lookup_miss_behavior_witness :
    get_simple_matches ([] : List (List ℕ × List ℕ)) ([0, 1] : List ℕ) = []
    ∧ get_variety_matches [("prime", ([] : List (List ℕ × List ℕ)))]
        "prime" ([1, 2] : List ℕ) = none :=
  ⟨lookup_miss_behavior.1 [] [0, 1] (by decide),
   lookup_miss_behavior.2 [("prime", [])] "prime" [] [1, 2] (by decide) (by decide)⟩

/-- C3.  For the even family, resolution is by even-digit count, not by
exact parity vector: an integer is in the length-filtered result exactly
when it lies in the index range, has the answer's decimal length, and its
parity vector has the same number of `1`s as the answer's, whatever the
pattern.  For the digits `[1,2,3,4]` the vector is `[0,1,0,1]` with
even-count 2, so resolution returns every 4-digit number of the index
with exactly two even digits. -/
theorem even_matches_by_count (mx : ℕ) (ds : List ℕ) :
    (∀ m, m ∈ filter_by_length (digits_to_num ds)
        (get_even_matches
          (store_simple_maps mx (fun n => even_num_map (num_to_digits n)))
          (even_num_map ds))
      ↔ (1 ≤ m ∧ m ≤ mx
          ∧ numLen m = numLen (digits_to_num ds)
          ∧ (even_num_map (num_to_digits m)).count 1 = (even_num_map ds).count 1))
    ∧ even_num_map [1, 2, 3, 4] = [0, 1, 0, 1]
    ∧ even_num_even [1, 2, 3, 4] = 2 := by
  refine ⟨?_, by decide, by decide⟩
  intro m
  constructor
  · intro h
    rcases mem_filter_by_length.1 h with ⟨hm, hlen⟩
    rcases mem_get_even_matches.1 hm with ⟨q, hq, hcount, hmq⟩
    have hs := store_simple_maps_sound q hq m hmq
    refine ⟨hs.1, hs.2.1, hlen, ?_⟩
    rw [← hs.2.2] at hcount
    exact hcount
  · rintro ⟨h1, h2, h3, h4⟩
    rw [mem_filter_by_length]
    refine ⟨?_, h3⟩
    have hmem := store_simple_maps_complete mx
      (fun n => even_num_map (num_to_digits n)) m h1 h2
    rcases mem_dget hmem with ⟨b, hb, hnb⟩
    exact mem_get_even_matches.2
      ⟨(even_num_map (num_to_digits m), b), dget?_mem_pair hb, h4, hnb⟩

/-- Witness for C3 at a concrete input: 10 (parity vector `[1, 0]`, one
even digit) is resolved for the answer 12 (parity vector `[0, 1]`, one
even digit) even though the exact vectors differ. -/
theorem even_matches_by_count_witness :
    10 ∈ filter_by_length (digits_to_num [1, 2])
      (get_even_matches
        (store_simple_maps 12 (fun n => even_num_map (num_to_digits n)))
        (even_num_map [1, 2])) :=
  ((even_matches_by_count 12 [1, 2]).1 10).2 (by decide)

/-! ## Negative-constraint clues (`constants.py`, `Solver.add_negative_constraint_clues`) -/

/-- `Solver.format_clue_type`: apply the rename map `multiples ↦ divided`,
uppercase, and replace underscores by spaces. -/
def format_clue_type (clue_type : String) : String :=
  let renamed := if clue_type = "multiples" then "divided" else clue_type
  renamed.toUpper.replace "_" " "

/-- The `limits[difficulty].get("length")` entry of `CLUES` for a clue
type: `multiples` has length 4 at every difficulty; the special
properties have 1 (easy), 2 (medium) and none (hard); no other clue type
has a `limits` entry. -/
def clue_limits (clue_type difficulty : String) : Option ℕ :=
  if clue_type = "multiples" then some 4
  else if clue_type = "prime" ∨ clue_type = "perfect" ∨ clue_type = "fibonacci" then
    (if difficulty = "easy" then some 1
     else if difficulty = "medium" then some 2
     else none)
  else none

/-- `Solver._format_limit_msg`: the difficulty-scoped limit description
inserted into a negative-constraint clue. -/
def format_limit_msg (clue_type difficulty : String) : String :=
  match clue_limits clue_type difficulty with
  | none => ""
  | some l => if 1 < l then "1 or " ++ toString l ++ " digit " else "1-digit "

/-- `NEGATIVE_CONSTRAINT_CLUES.get(clue_type)`, already formatted with the
clue keyword and limit message as in `add_negative_constraint_clues`:
`some` of the final descriptor for the six configured families
(`multiples`, `prime`, `fibonacci`, `perfect`, `product`, `sum`), `none`
for every other clue type. -/
def negative_constraint_clue (difficulty clue_type : String) : Option String :=
  if clue_type = "multiples" then
    some ("No other " ++ format_clue_type clue_type
      ++ " clues apply for the divisors 1 through 4")
  else if clue_type = "prime" ∨ clue_type = "fibonacci" ∨ clue_type = "perfect" then
    some ("No other " ++ format_limit_msg clue_type difficulty
      ++ format_clue_type clue_type ++ " clues apply to my digits")
  else if clue_type = "product" ∨ clue_type = "sum" then
    some ("No other 1-digit " ++ format_clue_type clue_type
      ++ " clues apply to my digits")
  else none

/-- The clue families that own a negative-constraint template in
`NEGATIVE_CONSTRAINT_CLUES`. -/
def negative_constraint_families : List String :=
  ["multiples", "prime", "fibonacci", "perfect", "product", "sum"]

/-- `Solver.add_negative_constraint_clues`: for each clue type of the
final clues dict that has a configured template, append the formatted
negative-constraint descriptor to that clue type's list. -/
def add_negative_constraint_clues (difficulty : String)
    (final_clues : List (String × List String)) : List (String × List String) :=
  final_clues.map (fun p =>
    match negative_constraint_clue difficulty p.1 with
    | some clue => (p.1, p.2 ++ [clue])
    | none => p)

/-- C8.  A negative-constraint descriptor for family X is appended to the
result iff X is in the chosen combination (= a key of the final clues
dict) and X has a configured template; exactly the families `multiples`,
`prime`, `fibonacci`, `perfect`, `product`, `sum` have templates, while
`total_sum`, `even` and `order` do not. -/
theorem negative_constraint_scoping (difficulty : String)
    (final_clues : List (String × List String)) :
    (∀ ct, (negative_constraint_clue difficulty ct).isSome
        ↔ ct ∈ negative_constraint_families)
    ∧ (∀ ct cls, (ct, cls) ∈ final_clues →
        (ct ∈ negative_constraint_families →
          ∃ desc, (ct, cls ++ [desc])
            ∈ add_negative_constraint_clues difficulty final_clues)
        ∧ (ct ∉ negative_constraint_families →
          (ct, cls) ∈ add_negative_constraint_clues difficulty final_clues))
    ∧ (∀ q ∈ add_negative_constraint_clues difficulty final_clues,
        ∃ p ∈ final_clues, q.1 = p.1
          ∧ ((q.1 ∉ negative_constraint_families ∧ q.2 = p.2)
              ∨ (q.1 ∈ negative_constraint_families
                  ∧ ∃ desc, q.2 = p.2 ++ [desc]))) := by
  have hfam : ∀ ct, (negative_constraint_clue difficulty ct).isSome
      ↔ ct ∈ negative_constraint_families := by
    intro ct
    rw [negative_constraint_clue, negative_constraint_families]
    split_ifs with h1 h2 h3 <;> simp_all
    tauto
  refine ⟨hfam, ?_, ?_⟩
  · intro ct cls hmem
    constructor
    · intro hin
      rcases Option.isSome_iff_exists.1 ((hfam ct).2 hin) with ⟨desc, hdesc⟩
      refine ⟨desc, List.mem_map.2 ⟨(ct, cls), hmem, ?_⟩⟩
      simp [hdesc]
    · intro hout
      have hnone : negative_constraint_clue difficulty ct = none := by
        cases hopt : negative_constraint_clue difficulty ct with
        | none => rfl
        | some d =>
          exact absurd ((hfam ct).1 (by simp [hopt])) hout
      refine List.mem_map.2 ⟨(ct, cls), hmem, ?_⟩
      simp [hnone]
  · intro q hq
    rcases List.mem_map.1 hq with ⟨p, hp, hpq⟩
    cases hopt : negative_constraint_clue difficulty p.1 with
    | none =>
      rw [hopt] at hpq
      refine ⟨p, hp, by rw [← hpq], Or.inl ⟨?_, by rw [← hpq]⟩⟩
      rw [← hpq]
      intro hin
      have := (hfam p.1).2 hin
      simp [hopt] at this
    | some d =>
      rw [hopt] at hpq
      refine ⟨p, hp, by rw [← hpq], Or.inr ⟨?_, d, by rw [← hpq]⟩⟩
      rw [← hpq]
      exact (hfam p.1).1 (by simp [hopt])

/-- Witness for C8 at a concrete input: `prime` (a template family)
receives an appended descriptor, and since `("even", ["e1"])` is also in
the dict, `even` (no template) is passed through unchanged. -/
theorem negative_constraint_scoping_witness :
    (∃ desc, ("prime", ["p1"] ++ [desc])
        ∈ add_negative_constraint_clues "medium" [("even", ["e1"]), ("prime", ["p1"])])
    ∧ ("even", ["e1"])
        ∈ add_negative_constraint_clues "medium" [("even", ["e1"]), ("prime", ["p1"])] :=
  ⟨((negative_constraint_scoping "medium" [("even", ["e1"]), ("prime", ["p1"])]).2.1
      "prime" ["p1"] (by decide)).1 (by decide),
   ((negative_constraint_scoping "medium" [("even", ["e1"]), ("prime", ["p1"])]).2.1
      "even" ["e1"] (by decide)).2 (by decide)⟩

/-! ## The Multiples fingerprint (`MultiplesClueMap.build_clue`)

The source builds an `N×N` numpy float matrix `d[:, np.newaxis] / d` with
zero-division warnings suppressed (`x/0 = inf` for `x > 0`, `0/0 = nan`),
marks pairs of distinct zero positions with `-1` when the digit sequence
has more than one zero, zeroes every entry that differs from its integer
truncation (which also clears `inf`/`nan`), zeroes entries above the
limit, zeroes entries equal to the identity matrix, and casts to int.
`NpFloat` reproduces the float semantics needed for those steps. -/

/-- A numpy float as far as this pipeline needs it: a rational value,
positive infinity, or NaN. -/
inductive NpFloat where
  | val (q : ℚ)
  | inf
  | nan
deriving DecidableEq

/-- Float division of the two digits: `x/0` is `inf` for `x > 0`, `0/0`
is `nan` (warnings are suppressed in the source). -/
def np_div (a b : ℕ) : NpFloat :=
  if b = 0 then (if a = 0 then NpFloat.nan else NpFloat.inf)
  else NpFloat.val ((a : ℚ) / (b : ℚ))

/-- `zeros = np.where(d == 0)[0]`: the positions holding a zero digit. -/
def zerosPos (ds : List ℕ) : List (Fin ds.length) :=
  (List.finRange ds.length).filter (fun i => ds.get i = 0)

/-- The broadcast outer division `d[:, np.newaxis] / d`. -/
def multiples_raw (ds : List ℕ) (i j : Fin ds.length) : NpFloat :=
  np_div (ds.get i) (ds.get j)

/-- The zero-ambiguity sentinel step: when more than one digit is zero,
entries between distinct zero positions become `-1`. -/
def multiples_sentinel (ds : List ℕ) (i j : Fin ds.length) : NpFloat :=
  if 1 < (zerosPos ds).length ∧ i ∈ zerosPos ds ∧ j ∈ zerosPos ds ∧ i ≠ j
  then NpFloat.val (-1)
  else multiples_raw ds i j

/-- `map[map != map.astype(int)] = 0`: an entry that is not an integer
(`inf` and `nan` included, since they compare unequal to any integer
cast) becomes 0. -/
def np_int_trunc (x : NpFloat) : ℚ :=
  match x with
  | NpFloat.val q => if q.den = 1 then q else 0
  | NpFloat.inf => 0
  | NpFloat.nan => 0

/-- `map[map > limit] = 0`. -/
def multiples_limited (ds : List ℕ) (limit : ℕ) (i j : Fin ds.length) : ℚ :=
  if (limit : ℚ) < np_int_trunc (multiples_sentinel ds i j) then 0
  else np_int_trunc (multiples_sentinel ds i j)

/-- `map[map == np.identity(len(d))] = 0` followed by `map.astype(int)`:
the finished Multiples fingerprint matrix entry. -/
def multiples_num_map (ds : List ℕ) (limit : ℕ) (i j : Fin ds.length) : ℤ :=
  (if multiples_limited ds limit i j = (if i = j then (1 : ℚ) else 0) then 0
   else multiples_limited ds limit i j).num

lemma mem_zerosPos {ds : List ℕ} {i : Fin ds.length} :
    i ∈ zerosPos ds ↔ ds.get i = 0 := by
  simp [zerosPos, List.mem_filter, List.mem_finRange]

lemma zerosPos_two {ds : List ℕ} {i j : Fin ds.length} (hi : ds.get i = 0)
    (hj : ds.get j = 0) (hij : i ≠ j) : 1 < (zerosPos ds).length := by
  have hnd : (zerosPos ds).Nodup := (List.nodup_finRange _).filter _
  have hsub : ({i, j} : Finset (Fin ds.length)) ⊆ (zerosPos ds).toFinset := by
    intro x hx
    rw [Finset.mem_insert, Finset.mem_singleton] at hx
    rcases hx with hx | hx <;> subst hx
    · exact List.mem_toFinset.2 (mem_zerosPos.2 hi)
    · exact List.mem_toFinset.2 (mem_zerosPos.2 hj)
  have hcard : ({i, j} : Finset (Fin ds.length)).card = 2 := Finset.card_pair hij
  have hle := Finset.card_le_card hsub
  rw [hcard, List.toFinset_card_of_nodup hnd] at hle
  omega

/-- The number of zero digits equals the number of zero positions. -/
lemma count_zero_eq_zerosPos (ds : List ℕ) : ds.count 0 = (zerosPos ds).length := by
  conv_lhs => rw [← List.finRange_map_get ds]
  rw [List.count, List.countP_map, zerosPos, ← List.countP_eq_length_filter]
  refine List.countP_congr ?_
  intro i _
  by_cases h : ds.get i = 0 <;> simp [Function.comp, h]

lemma rat_natCast_div_den_one {a b : ℕ} (hb : b ≠ 0) :
    ((a : ℚ) / (b : ℚ)).den = 1 ↔ b ∣ a := by
  have hbq : (b : ℚ) ≠ 0 := Nat.cast_ne_zero.2 hb
  constructor
  · intro h
    have hq := (Rat.den_eq_one_iff _).1 h
    have hmul : ((((a : ℚ) / b).num : ℚ)) * b = a := by
      rw [hq]
      field_simp
    have hz : ((a : ℚ) / b).num * (b : ℤ) = (a : ℤ) := by exact_mod_cast hmul
    have : (b : ℤ) ∣ (a : ℤ) := ⟨((a : ℚ) / b).num, by rw [← hz]; ring⟩
    exact Int.natCast_dvd_natCast.1 this
  · rintro ⟨c, rfl⟩
    rw [Nat.cast_mul, mul_div_cancel_left₀ _ hbq]
    exact Rat.den_natCast c

lemma rat_natCast_div_of_dvd {a b : ℕ} (hb : b ≠ 0) (h : b ∣ a) :
    (a : ℚ) / (b : ℚ) = ((a / b : ℕ) : ℚ) := by
  rcases h with ⟨c, rfl⟩
  have hbq : (b : ℚ) ≠ 0 := Nat.cast_ne_zero.2 hb
  rw [Nat.cast_mul, mul_div_cancel_left₀ _ hbq,
    Nat.mul_div_cancel_left _ (Nat.pos_of_ne_zero hb)]

/-- Closed form of the finished Multiples matrix entry: diagonal entries
are 0; entries between two distinct zero positions are the sentinel `-1`;
any other entry is the integer quotient of the two digits when the
divisor is nonzero, divides the dividend, and the quotient is within the
limit, and 0 otherwise. -/
lemma multiples_num_map_eq (ds : List ℕ) (limit : ℕ) (i j : Fin ds.length) :
    multiples_num_map ds limit i j =
      if i = j then 0
      else if ds.get i = 0 ∧ ds.get j = 0 then -1
      else if ds.get j ≠ 0 ∧ ds.get j ∣ ds.get i ∧ ds.get i / ds.get j ≤ limit
        then ((ds.get i / ds.get j : ℕ) : ℤ)
        else 0 := by
  have hlim0 : ¬ ((limit : ℚ) < 0) := not_lt.2 (Nat.cast_nonneg _)
  by_cases hij : i = j
  · subst hij
    rw [if_pos rfl]
    have hs : multiples_sentinel ds i i = multiples_raw ds i i := by
      rw [multiples_sentinel, if_neg]
      rintro ⟨-, -, -, hne⟩
      exact hne rfl
    by_cases ha : ds.get i = 0
    · have htr : np_int_trunc (multiples_sentinel ds i i) = 0 := by
        rw [hs, multiples_raw, np_div, if_pos ha, if_pos ha, np_int_trunc]
      rw [multiples_num_map, multiples_limited, htr, if_neg hlim0, if_pos rfl]
      rw [if_neg (by norm_num : (0 : ℚ) ≠ 1)]
      norm_num
    · have h1 : (ds.get i : ℚ) / (ds.get i : ℚ) = 1 :=
        div_self (Nat.cast_ne_zero.2 ha)
      have htr : np_int_trunc (multiples_sentinel ds i i) = 1 := by
        rw [hs, multiples_raw, np_div, if_neg ha, h1, np_int_trunc]
        norm_num
      rw [multiples_num_map, multiples_limited, htr, if_pos rfl]
      by_cases hl : (limit : ℚ) < 1
      · rw [if_pos hl, if_neg (by norm_num : (0 : ℚ) ≠ 1)]
        norm_num
      · rw [if_neg hl, if_pos rfl]
        norm_num
  · rw [if_neg hij]
    by_cases hz : ds.get i = 0 ∧ ds.get j = 0
    · rw [if_pos hz]
      have hlen := zerosPos_two hz.1 hz.2 hij
      have htr : np_int_trunc (multiples_sentinel ds i j) = -1 := by
        rw [multiples_sentinel,
          if_pos ⟨hlen, mem_zerosPos.2 hz.1, mem_zerosPos.2 hz.2, hij⟩,
          np_int_trunc]
        norm_num
      have hnl : ¬ ((limit : ℚ) < -1) := by
        have h0 : (0 : ℚ) ≤ (limit : ℚ) := Nat.cast_nonneg _
        linarith
      rw [multiples_num_map, multiples_limited, htr, if_neg hnl, if_neg hij]
      rw [if_neg (by norm_num : (-1 : ℚ) ≠ 0)]
      norm_num
    · rw [if_neg hz]
      have hs : multiples_sentinel ds i j = multiples_raw ds i j := by
        rw [multiples_sentinel, if_neg]
        rintro ⟨-, hi, hjj, -⟩
        exact hz ⟨mem_zerosPos.1 hi, mem_zerosPos.1 hjj⟩
      by_cases hb : ds.get j = 0
      · have ha : ¬ ds.get i = 0 := fun h => hz ⟨h, hb⟩
        rw [if_neg (by tauto)]
        have htr : np_int_trunc (multiples_sentinel ds i j) = 0 := by
          rw [hs, multiples_raw, np_div, if_pos hb, if_neg ha, np_int_trunc]
        rw [multiples_num_map, multiples_limited, htr, if_neg hlim0, if_neg hij,
          if_pos rfl]
        norm_num
      · by_cases hdvd : ds.get j ∣ ds.get i
        · have hq := rat_natCast_div_of_dvd hb hdvd
          have hden : ((ds.get i : ℚ) / (ds.get j : ℚ)).den = 1 :=
            (rat_natCast_div_den_one hb).2 hdvd
          have htr : np_int_trunc (multiples_sentinel ds i j)
              = ((ds.get i / ds.get j : ℕ) : ℚ) := by
            rw [hs, multiples_raw, np_div, if_neg hb, np_int_trunc, if_pos hden, hq]
          by_cases hlim : ds.get i / ds.get j ≤ limit
          · rw [if_pos ⟨hb, hdvd, hlim⟩]
            have hnl : ¬ ((limit : ℚ) < ((ds.get i / ds.get j : ℕ) : ℚ)) :=
              not_lt.2 (by exact_mod_cast hlim)
            rw [multiples_num_map, multiples_limited, htr, if_neg hnl, if_neg hij]
            by_cases hc0 : ds.get i / ds.get j = 0
            · rw [hc0]
              norm_num
            · rw [if_neg (by exact_mod_cast hc0)]
              exact_mod_cast Rat.num_natCast _
          · rw [if_neg (by tauto)]
            have hlt : ((limit : ℚ)) < ((ds.get i / ds.get j : ℕ) : ℚ) := by
              exact_mod_cast Nat.lt_of_not_le hlim
            rw [multiples_num_map, multiples_limited, htr, if_pos hlt, if_neg hij,
              if_pos rfl]
            norm_num
        · rw [if_neg (by tauto)]
          have hden : ((ds.get i : ℚ) / (ds.get j : ℚ)).den ≠ 1 :=
            fun h => hdvd ((rat_natCast_div_den_one hb).1 h)
          have htr : np_int_trunc (multiples_sentinel ds i j) = 0 := by
            rw [hs, multiples_raw, np_div, if_neg hb, np_int_trunc, if_neg hden]
          rw [multiples_num_map, multiples_limited, htr, if_neg hlim0, if_neg hij,
            if_pos rfl]
          norm_num

/-- C5.  With two or more zero digits, the Multiples fingerprint holds
the sentinel `-1` at every off-diagonal entry between two zero positions
(in particular at (0,1) and (1,0) for the digits `[0,0,5]`), while
diagonal entries are 0; with at most one zero digit no sentinel appears
anywhere, and an off-diagonal entry is the integer quotient
`digit[i]/digit[j]` when that is a positive integer not exceeding the
limit, and 0 otherwise. -/
theorem multiples_zero_sentinel (ds : List ℕ) (limit : ℕ) :
    (∀ i j : Fin ds.length, i ≠ j → ds.get i = 0 → ds.get j = 0 →
        multiples_num_map ds limit i j = -1)
    ∧ (∀ i : Fin ds.length, multiples_num_map ds limit i i = 0)
    ∧ (multiples_num_map [0, 0, 5] 4 ⟨0, by decide⟩ ⟨1, by decide⟩ = -1
        ∧ multiples_num_map [0, 0, 5] 4 ⟨1, by decide⟩ ⟨0, by decide⟩ = -1)
    ∧ (ds.count 0 ≤ 1 → ∀ i j : Fin ds.length,
        multiples_num_map ds limit i j ≠ -1
        ∧ (i ≠ j → multiples_num_map ds limit i j
            = if ds.get j ≠ 0 ∧ ds.get j ∣ ds.get i ∧ 0 < ds.get i
                 ∧ ds.get i / ds.get j ≤ limit
              then ((ds.get i / ds.get j : ℕ) : ℤ)
              else 0)) := by
  refine ⟨?_, ?_, ⟨?_, ?_⟩, ?_⟩
  · intro i j hij hi hj
    rw [multiples_num_map_eq, if_neg hij, if_pos ⟨hi, hj⟩]
  · intro i
    rw [multiples_num_map_eq, if_pos rfl]
  · rw [multiples_num_map_eq, if_neg (by decide), if_pos (by decide)]
  · rw [multiples_num_map_eq, if_neg (by decide), if_pos (by decide)]
  · intro hcount i j
    have hnb : i ≠ j → ¬ (ds.get i = 0 ∧ ds.get j = 0) := by
      intro hij
      rintro ⟨hi, hj⟩
      have h2 := zerosPos_two hi hj hij
      rw [← count_zero_eq_zerosPos] at h2
      omega
    constructor
    · by_cases hij : i = j
      · rw [multiples_num_map_eq, if_pos hij]
        decide
      · rw [multiples_num_map_eq, if_neg hij, if_neg (hnb hij)]
        by_cases hcase : ds.get j ≠ 0 ∧ ds.get j ∣ ds.get i
            ∧ ds.get i / ds.get j ≤ limit
        · rw [if_pos hcase]
          intro heq
          have := Int.natCast_nonneg (ds.get i / ds.get j)
          omega
        · rw [if_neg hcase]
          decide
    · intro hij
      rw [multiples_num_map_eq, if_neg hij, if_neg (hnb hij)]
      by_cases hcase : ds.get j ≠ 0 ∧ ds.get j ∣ ds.get i
          ∧ ds.get i / ds.get j ≤ limit
      · rw [if_pos hcase]
        by_cases hpos : 0 < ds.get i
        · rw [if_pos ⟨hcase.1, hcase.2.1, hpos, hcase.2.2⟩]
        · have hi0 : ds.get i = 0 := by omega
          rw [if_neg (fun hh => hpos hh.2.2.1), hi0, Nat.zero_div]
          norm_num
      · rw [if_neg hcase, if_neg (fun hh => hcase ⟨hh.1, hh.2.1, hh.2.2.2⟩)]

/-- Witness for C5 at concrete inputs: the sentinel appears between the
two zero positions of `[0,0,5]`, and no sentinel appears for the
zero-free digits `[1,2,4]`. -/
theorem multiples_zero_sentinel_witness :
    multiples_num_map [0, 0, 5] 4 ⟨0, by decide⟩ ⟨1, by decide⟩ = -1
    ∧ multiples_num_map [1, 2, 4] 4 ⟨2, by decide⟩ ⟨0, by decide⟩ ≠ -1 :=
  ⟨(multiples_zero_sentinel [0, 0, 5] 4).1 ⟨0, by decide⟩ ⟨1, by decide⟩
      (by decide) (by decide) (by decide),
   ((multiples_zero_sentinel [1, 2, 4] 4).2.2.2 (by decide)
      ⟨2, by decide⟩ ⟨0, by decide⟩).1⟩

/-! ## The Special Properties fingerprint (`SpecialPropertiesClueMap.build_clue`) -/

/-- Insertion into a sorted list (helper for Python's `list.sort()`). -/
def insertSorted (x : ℕ) : List ℕ → List ℕ
  | [] => [x]
  | y :: ys => if x ≤ y then x :: y :: ys else y :: insertSorted x ys

/-- Python's ascending `list.sort()` (insertion sort). -/
def sortAsc (l : List ℕ) : List ℕ :=
  l.foldr insertSorted []

/-- `int(str(x) + str(y))`: the two-digit "start‖end" position code. -/
def pyIntConcat (x y : ℕ) : ℕ :=
  x * 10 ^ numLen y + y

/-- Model of `sympy.isprime` (simple trial division): `n` is prime iff
`2 ≤ n` and no `m` with `2 ≤ m < n` divides `n`. -/
def isprime (n : ℕ) : Bool :=
  decide (2 ≤ n) && (List.range (n - 2)).all (fun m => decide (n % (m + 2) ≠ 0))

/-- The model of `sympy.isprime` agrees with the mathematical predicate. -/
lemma isprime_iff {n : ℕ} : isprime n = true ↔ Nat.Prime n := by
  rw [isprime, Nat.prime_def_lt]
  simp only [Bool.and_eq_true, decide_eq_true_eq, List.all_eq_true, List.mem_range]
  constructor
  · rintro ⟨h2, hall⟩
    refine ⟨h2, ?_⟩
    intro m hm hdvd
    rcases Nat.lt_or_ge m 2 with hm2 | hm2
    · interval_cases m
      · exact absurd (Nat.eq_zero_of_zero_dvd hdvd) (by omega)
      · rfl
    · exfalso
      have hidx : m - 2 < n - 2 := by omega
      have := hall (m - 2) hidx
      rw [show m - 2 + 2 = m by omega] at this
      exact this (Nat.dvd_iff_mod_eq_zero.1 hdvd)
  · rintro ⟨h2, hall⟩
    refine ⟨h2, ?_⟩
    intro m hm h0
    have hdvd : (m + 2) ∣ n := Nat.dvd_iff_mod_eq_zero.2 h0
    have := hall (m + 2) (by omega) hdvd
    omega

/-- `SpecialPropertiesClueMap.build_clue`: for every contiguous run
`digits[i:j+1]` of length at most the limit (`self.limit = limit or
len(digits)`), concatenate the run into an integer and test the property;
record `i+1` for a single digit and the concatenated code
`int(str(i+1)+str(j+1))` for a longer run; return the sorted codes. -/
def special_properties_num_map (ds : List ℕ) (prop : ℕ → Bool)
    (limit : Option ℕ) : List ℕ :=
  sortAsc ((List.range ds.length).map (fun i =>
    (List.range' i (min ds.length (i + (match limit with
        | none => ds.length
        | some l => if l = 0 then ds.length else l)) - i)).filterMap (fun j =>
      if prop (digits_to_num ((ds.drop i).take (j - i + 1)))
      then some (if i = j then i + 1 else pyIntConcat (i + 1) (j + 1))
      else none))).flatten

/-- C9 counterexample.  For digits `[1,3,9,7]` with run-length limit 2 and
the prime predicate, the fingerprint is NOT `[2, 4]`: the run "13" is
prime (13 is a prime number), so it does contribute a code, contrary to
the claim. -/
theorem special_prime_run_counterexample :
    special_properties_num_map [1, 3, 9, 7] isprime (some 2) ≠ [2, 4]
    ∧ isprime 13 = true ∧ Nat.Prime 13 :=
  ⟨by decide, by decide, isprime_iff.1 (by decide)⟩

/-- C9 (amended).  For digits `[1,3,9,7]` with run-length limit 2 and the
prime predicate, the satisfying runs are "3" (code 2), "7" (code 4),
"13" (code 12) and "97" (code 34) — 13 and 97 are prime — so the
fingerprint is the sorted code list `[2, 4, 12, 34]`; the runs "1", "9"
and "39" contribute nothing. -/
theorem special_prime_run_amended :
    special_properties_num_map [1, 3, 9, 7] isprime (some 2) = [2, 4, 12, 34]
    ∧ Nat.Prime 13 ∧ Nat.Prime 97 :=
  ⟨by decide, isprime_iff.1 (by decide), isprime_iff.1 (by decide)⟩

/-! ## Digit-sequence validation (C6) -/

/-- Stated from the spec's words (section 7, InvalidDigitSequence): a
digit sequence is valid when its digit count lies in 3..6 and every
entry is a digit 0..9.  The core never evaluates any such predicate. -/
def spec_valid_digit_sequence (ds : List ℕ) : Bool :=
  decide (3 ≤ ds.length) && decide (ds.length ≤ 6) && ds.all (fun d => decide (d ≤ 9))

/-- The `num_digits` field validator of `DigitsForm` in `forms.py`:
`NumberRange(min=3, max=6)` — the only place the 3..6 bound exists. -/
def digits_form_num_digits_valid (nd : ℤ) : Bool :=
  decide (3 ≤ nd) && decide (nd ≤ 6)

/-- C6 counterexample.  The 2-digit sequence `[1, 2]` is invalid per the
spec, yet every fingerprint encoder happily computes a normal value for
it (and for a 7-digit sequence): nothing in `Solver.__init__` or
`ClueGenerator.__init__` rejects it, and no InvalidDigitSequence error
exists in the code. -/
theorem invalid_sequence_not_rejected :
    spec_valid_digit_sequence [1, 2] = false
    ∧ order_num_map [1, 2] = [1, 0]
    ∧ even_num_map [1, 2] = [0, 1]
    ∧ total_sum_num_map [1, 2] = [-1, 1]
    ∧ even_num_map [1, 2, 3, 4, 5, 6, 7] = [0, 1, 0, 1, 0, 1, 0] :=
  ⟨by decide, by decide, by decide, by decide, by decide⟩

/-- C6 (amended).  The core performs no digit-sequence validation: the
encoders are total functions producing well-formed fingerprints for every
input list, and the 3..6 digit-count bound is enforced only by the web
form's `NumberRange` validator on the requested number of digits. -/
theorem no_core_digit_validation :
    (∀ ds : List ℕ, (order_num_map ds).length = 2
      ∧ (even_num_map ds).length = ds.length
      ∧ (total_sum_num_map ds).length = ds.length)
    ∧ (∀ nd : ℤ, digits_form_num_digits_valid nd = true ↔ 3 ≤ nd ∧ nd ≤ 6) := by
  constructor
  · intro ds
    refine ⟨rfl, ?_, ?_⟩
    · rw [even_num_map]
      exact List.length_map _ _
    · rw [total_sum_num_map]
      exact List.length_map _ _
  · intro nd
    simp [digits_form_num_digits_valid]

/-- Witness for C6's amended statement: the form validator accepts 5 and
the bound facts hold at a concrete sequence. -/
theorem no_core_digit_validation_witness :
    digits_form_num_digits_valid 5 = true ∧ (even_num_map [7, 7]).length = 2 :=
  ⟨(no_core_digit_validation.2 5).2 (by decide),
   (no_core_digit_validation.1 [7, 7]).2.1⟩

end Digits
